import Mathlib

/-!
Verification of the classification-and-aggregation engine of `codescan.py`
(class `CodeAnalyzer`).  The definitions below are a shallow embedding of the
source: lines of a file are `List Char` (newline-stripped, as produced by
`readlines` up to the trailing newline, which none of the patterns can
distinguish), Python dicts keyed by strings become ordered association
lists (Python 3.7+ dicts preserve insertion order), Python sets become
`Finset`, and fallible operations return `Except`/`Option`.  Character
handling is ASCII, which covers every pattern literal and every input
considered here.
-/

/-- Lowercase an ASCII character, as `str.lower` does on ASCII input. -/
def lcChar (c : Char) : Char :=
  if 65 ≤ c.toNat && c.toNat ≤ 90 then Char.ofNat (c.toNat + 32) else c

/-- Case-insensitive character comparison (re.IGNORECASE on ASCII). -/
def charsEqCI (a b : Char) : Bool := lcChar a == lcChar b

/-- Word character for the regex `\b` assertion: `[A-Za-z0-9_]` (ASCII `\w`). -/
def isWordChar (c : Char) : Bool := c.isAlphanum || c == '_'

/-- Whether position `i` of `line` holds a word character (out of range: no). -/
def isWordAt (line : List Char) (i : Nat) : Bool :=
  match line.get? i with
  | some c => isWordChar c
  | none => false

/-- The regex `\b` assertion at position `i`: a word char on exactly one side. -/
def wordBoundaryAt (line : List Char) (i : Nat) : Bool :=
  (if i == 0 then false else isWordAt line (i - 1)) != isWordAt line i

/-- Whitespace as matched by `\s` / stripped by `str.strip` (ASCII part). -/
def isSpaceChar (c : Char) : Bool :=
  c == ' ' || c == '\t' || c == '\n' || c == '\r' || c == '\x0b' || c == '\x0c'

/-- Model of Python `line.strip()` on a line of ASCII text. -/
def stripStr (line : List Char) : String :=
  String.mk (((line.dropWhile isSpaceChar).reverse.dropWhile isSpaceChar).reverse)

/-- The slice `line[i : i+n]`. -/
def takeSlice (line : List Char) (i n : Nat) : List Char := (line.drop i).take n

/-- Case-insensitive literal match of `alt` at position `i` of `line`. -/
def litMatchesAt (line : List Char) (i : Nat) (alt : List Char) : Bool :=
  let s := takeSlice line i alt.length
  s.length == alt.length && (s.zip alt).all (fun p => charsEqCI p.1 p.2)

/-- One attempt of the demographic pattern `\b(alt1|...|altn)\b` (IGNORECASE)
at position `i`: the boundary is checked first, then the alternatives in
order; an alternative succeeds when its literal matches case-insensitively
and a word boundary follows.  `match.group(0)` is the verbatim slice of the
line, so the original casing is returned.  Empty alternatives are skipped
(none occur in the catalog). -/
def tryAltsAt (alts : List String) (line : List Char) (i : Nat) : Option String :=
  if wordBoundaryAt line i then
    alts.findSome? (fun alt =>
      let n := alt.data.length
      if n != 0 && litMatchesAt line i alt.data && wordBoundaryAt line (i + n) then
        some (String.mk (takeSlice line i n))
      else none)
  else none

/-- Scanning loop of `re.finditer`: try the pattern at each position, and on
success continue after the match.  Every successful match consumes at least
one character, so `line.length` steps of fuel always suffice. -/
def scanIter (alts : List String) (line : List Char) : Nat → Nat → List String
  | _, 0 => []
  | i, fuel + 1 =>
    if i < line.length then
      match tryAltsAt alts line i with
      | some s => s :: scanIter alts line (i + s.length) fuel
      | none => scanIter alts line (i + 1) fuel
    else []

/-- All matches of `\b(alt1|...|altn)\b` (IGNORECASE) in a line, left to
right and non-overlapping, as `re.finditer` yields them. -/
def finditerAlts (alts : List String) (line : List Char) : List String :=
  scanIter alts line 0 line.length

/-- The demographic pattern catalog `CodeAnalyzer.demographic_patterns`,
in dict insertion order.  Each regex is `\b( ... )\b` over literal
alternatives; `gov_ids?` expands to the two alternatives `gov_ids`,
`gov_id` in this order, matching the greedy `s?`. -/
def demographic_patterns : List (String × List String) :=
  [("id", ["customerId", "cm_15", "gov_ids", "gov_id", "government_id"]),
   ("name", ["embossed_name", "embossed_company_name", "primary_name",
     "secondary_name", "legal_name", "dba_name", "double_byte_name",
     "first_name", "last_name", "full_name", "name", "amount"]),
   ("address", ["home_address", "business_address", "alternate_address",
     "temporary_address", "other_address", "additional_addresses", "address",
     "street", "city", "state", "zip", "postal_code"]),
   ("phone", ["home_phone", "alternate_home_phone", "business_phone",
     "alternate_business_phone", "mobile_phone", "alternate_mobile_phone",
     "attorney_phone", "fax", "ani_phone", "other_phone", "additional_phone",
     "phone", "contact"]),
   ("email", ["servicing_email", "estatement_email", "business_email",
     "other_email_address", "email"]),
   ("identity", ["ssn", "social_security", "tax_id", "passport", "gov_ids",
     "gov_id", "government_id"]),
   ("demographics", ["gender", "dob", "date_of_birth", "age", "nationality",
     "ethnicity", "preference_language_cd", "member_since_date"])]

/-- Regex abstract syntax for the integration patterns.  All quantified
subterms in the source patterns quantify single-character items, so star,
plus and option are over character classes; literals match
case-insensitively because every pattern is compiled with re.IGNORECASE. -/
inductive Rx where
  | eps : Rx
  | lit : String → Rx
  | cls : (Char → Bool) → Rx
  | optC : (Char → Bool) → Rx
  | starC : (Char → Bool) → Rx
  | plusC : (Char → Bool) → Rx
  | wb : Rx
  | cat : Rx → Rx → Rx
  | alt : Rx → Rx → Rx

/-- A regex matching nothing, used as the unit of alternative lists. -/
def failRx : Rx := Rx.cls (fun _ => false)

/-- Alternation of a list of literals, left to right. -/
def altLits (ss : List String) : Rx := (ss.map Rx.lit).foldr Rx.alt failRx

/-- End positions of greedy-or-shorter runs of class characters starting at
`i`: position `i` itself and every extension while the class matches. -/
def starPositions (line : List Char) (f : Char → Bool) (i : Nat) : List Nat :=
  i :: (if h : i < line.length then
          (if f (line.get ⟨i, h⟩) then starPositions line f (i + 1) else [])
        else [])
termination_by line.length - i
decreasing_by simp_wf; omega

/-- All end positions of a match of `r` starting at position `i` of `line`.
For a boolean `re.search` test only the existence of an end position
matters, so greediness and alternative order are irrelevant. -/
def runRx (line : List Char) : Rx → Nat → List Nat
  | .eps, i => [i]
  | .lit s, i => if litMatchesAt line i s.data then [i + s.data.length] else []
  | .cls f, i =>
    match line.get? i with
    | some c => if f c then [i + 1] else []
    | none => []
  | .optC f, i =>
    i :: (match line.get? i with
          | some c => if f c then [i + 1] else []
          | none => [])
  | .starC f, i => starPositions line f i
  | .plusC f, i => (starPositions line f i).drop 1
  | .wb, i => if wordBoundaryAt line i then [i] else []
  | .cat a b, i => (runRx line a i).flatMap (fun j => runRx line b j)
  | .alt a b, i => runRx line a i ++ runRx line b i

/-- Boolean `re.search`: some match of `r` starts at some position of `line`. -/
def searchRx (r : Rx) (line : List Char) : Bool :=
  (List.range (line.length + 1)).any (fun i => !(runRx line r i).isEmpty)

/-- Character class `.` (any character except newline). -/
def anyChar (c : Char) : Bool := c != '\n'

/-- Character class `[^\s<>"]` of the URL patterns. -/
def urlChar (c : Char) : Bool := !(isSpaceChar c || c == '<' || c == '>' || c == '"')

/-- Character class `[:=]` of the xmlns pattern. -/
def colonEq (c : Char) : Bool := c == ':' || c == '='

/-- Character class `[_\s]` of several patterns. -/
def usWs (c : Char) : Bool := c == '_' || isSpaceChar c

/-- Character class `[Client]` (IGNORECASE) of the WebService pattern. -/
def clientClass (c : Char) : Bool := "Client".data.any (fun k => charsEqCI k c)

/-- Character `s` (IGNORECASE), for `https?`. -/
def sChar (c : Char) : Bool := charsEqCI c 's'

/-- Pattern `\b(get|post|put|delete|patch)\b.*\b(api|endpoint)\b`. -/
def rx_http_methods : Rx :=
  .cat .wb (.cat (altLits ["get", "post", "put", "delete", "patch"])
    (.cat .wb (.cat (.starC anyChar)
      (.cat .wb (.cat (altLits ["api", "endpoint"]) .wb)))))

/-- Pattern `https?://[^\s<>"]+|www\.[^\s<>"]+`. -/
def rx_url_patterns : Rx :=
  .alt (.cat (.lit "http") (.cat (.optC sChar) (.cat (.lit "://") (.plusC urlChar))))
       (.cat (.lit "www.") (.plusC urlChar))

/-- Pattern `@RequestMapping|@GetMapping|@PostMapping|@PutMapping|@DeleteMapping`. -/
def rx_api_endpoints : Rx :=
  altLits ["@RequestMapping", "@GetMapping", "@PostMapping", "@PutMapping",
    "@DeleteMapping"]

/-- Pattern `\b(soap|wsdl|xml)\b`. -/
def rx_soap_components : Rx :=
  .cat .wb (.cat (altLits ["soap", "wsdl", "xml"]) .wb)

/-- Pattern `wsdl|WSDL|\.wsdl|getWSDL|WebService[Client]?`. -/
def rx_wsdl : Rx :=
  .alt (.lit "wsdl") (.alt (.lit "WSDL") (.alt (.lit ".wsdl")
    (.alt (.lit "getWSDL") (.cat (.lit "WebService") (.optC clientClass)))))

/-- Pattern `SOAPMessage|SOAPEnvelope|SOAPBody|SOAPHeader|SoapClient|SoapBinding`. -/
def rx_soap_operations : Rx :=
  altLits ["SOAPMessage", "SOAPEnvelope", "SOAPBody", "SOAPHeader",
    "SoapClient", "SoapBinding"]

/-- Pattern `xmlns[:=]|namespace|schemaLocation`. -/
def rx_xml_namespaces : Rx :=
  .alt (.cat (.lit "xmlns") (.cls colonEq))
    (.alt (.lit "namespace") (.lit "schemaLocation"))

/-- Pattern `@WebService|@WebMethod|@SOAPBinding|@WebResult|@WebParam`. -/
def rx_soap_annotations : Rx :=
  altLits ["@WebService", "@WebMethod", "@SOAPBinding", "@WebResult", "@WebParam"]

/-- Pattern `endpoint[_\s]?url|service[_\s]?url|wsdl[_\s]?url`. -/
def rx_soap_endpoints : Rx :=
  .alt (.cat (.lit "endpoint") (.cat (.optC usWs) (.lit "url")))
    (.alt (.cat (.lit "service") (.cat (.optC usWs) (.lit "url")))
      (.cat (.lit "wsdl") (.cat (.optC usWs) (.lit "url"))))

/-- Pattern `\b(select|insert|update|delete)\s+from|into\b`; the alternation
binds at top level, so this is `(\b(...)\s+from)|(into\b)`. -/
def rx_sql_operations : Rx :=
  .alt (.cat .wb (.cat (altLits ["select", "insert", "update", "delete"])
    (.cat (.plusC isSpaceChar) (.lit "from"))))
    (.cat (.lit "into") .wb)

/-- Pattern `jdbc:|connection[_\s]?string|database[_\s]?url`. -/
def rx_db_connections : Rx :=
  .alt (.lit "jdbc:")
    (.alt (.cat (.lit "connection") (.cat (.optC usWs) (.lit "string")))
      (.cat (.lit "database") (.cat (.optC usWs) (.lit "url"))))

/-- Pattern `kafka|producer|consumer|topic`. -/
def rx_kafka : Rx := altLits ["kafka", "producer", "consumer", "topic"]

/-- Pattern `rabbitmq|amqp`. -/
def rx_rabbitmq : Rx := altLits ["rabbitmq", "amqp"]

/-- Pattern `jms|queue|topic`. -/
def rx_jms : Rx := altLits ["jms", "queue", "topic"]

/-- Pattern `\b(csv|excel|xlsx|json|properties).*(read|write|load|save)\b`. -/
def rx_file_operations : Rx :=
  .cat .wb (.cat (altLits ["csv", "excel", "xlsx", "json", "properties"])
    (.cat (.starC anyChar) (.cat (altLits ["read", "write", "load", "save"]) .wb)))

/-- The integration pattern catalog `CodeAnalyzer.integration_patterns`, in
dict insertion order: category name, then named sub-rules. -/
def integrationCatalog : List (String × List (String × Rx)) :=
  [("rest_api",
    [("http_methods", rx_http_methods), ("url_patterns", rx_url_patterns),
     ("api_endpoints", rx_api_endpoints)]),
   ("soap_services",
    [("soap_components", rx_soap_components), ("wsdl", rx_wsdl),
     ("soap_operations", rx_soap_operations), ("xml_namespaces", rx_xml_namespaces),
     ("soap_annotations", rx_soap_annotations), ("soap_endpoints", rx_soap_endpoints)]),
   ("database",
    [("sql_operations", rx_sql_operations), ("db_connections", rx_db_connections)]),
   ("messaging",
    [("kafka", rx_kafka), ("rabbitmq", rx_rabbitmq), ("jms", rx_jms)]),
   ("file",
    [("file_operations", rx_file_operations)])]

/-- All `(pattern_type, sub_type, pattern)` triples of the catalog. -/
def integrationTriples : List (String × String × Rx) :=
  integrationCatalog.flatMap (fun pc => pc.2.map (fun sp => (pc.1, sp.1, sp.2)))

/-- One occurrence record `{line_number, code_snippet}`. -/
structure Occurrence where
  line_number : Nat
  code_snippet : String
deriving DecidableEq

/-- Per-field record `{data_type, occurrences}`. -/
structure FieldData where
  data_type : String
  occurrences : List Occurrence
deriving DecidableEq

/-- Field name to field data, an insertion-ordered dict. -/
abbrev FieldMap := List (String × FieldData)

/-- File path to field map, an insertion-ordered dict. -/
abbrev DemoMap := List (String × FieldMap)

/-- One integration pattern hit appended by `analyze_file`. -/
structure IntegrationMatch where
  pattern_type : String
  sub_type : String
  file_path : String
  line_number : Nat
  code_snippet : String
deriving DecidableEq

/-- Dict lookup on an association list (first matching key). -/
def aLookup {β : Type} (k : String) : List (String × β) → Option β
  | [] => none
  | (k2, v) :: rest => if k2 = k then some v else aLookup k rest

/-- Append an occurrence to the entry of `field` (which must be present). -/
def appendOccEntry : FieldMap → String → Occurrence → FieldMap
  | [], _, _ => []
  | (f, d) :: rest, field, occ =>
    if f = field then (f, ⟨d.data_type, d.occurrences ++ [occ]⟩) :: rest
    else (f, d) :: appendOccEntry rest field occ

/-- The per-match dict update of `analyze_file`: create the field entry with
its `data_type` on first sight, then append the occurrence. -/
def updateFieldMap (fm : FieldMap) (field dtype : String) (occ : Occurrence) : FieldMap :=
  match aLookup field fm with
  | none => fm ++ [(field, ⟨dtype, [occ]⟩)]
  | some _ => appendOccEntry fm field occ

/-- Apply `g` to the field map of `file` (which must be present). -/
def updateFileEntry : DemoMap → String → (FieldMap → FieldMap) → DemoMap
  | [], _, _ => []
  | (f, fm) :: rest, file, g =>
    if f = file then (f, g fm) :: rest
    else (f, fm) :: updateFileEntry rest file g

/-- The nested dict update of `analyze_file` for one demographic match. -/
def addOcc (d : DemoMap) (file field dtype : String) (occ : Occurrence) : DemoMap :=
  match aLookup file d with
  | none => d ++ [(file, updateFieldMap [] field dtype occ)]
  | some _ => updateFileEntry d file (fun fm => updateFieldMap fm field dtype occ)

/-- Demographic side of the per-line loop of `analyze_file`: for each
category in catalog order, fold every finditer match into the nested dict. -/
def analyzeLineDemo (file : String) (n : Nat) (line : List Char) (d : DemoMap) : DemoMap :=
  demographic_patterns.foldl (fun d p =>
    (finditerAlts p.2 line).foldl
      (fun d name => addOcc d file name p.1 ⟨n, stripStr line⟩) d) d

/-- Integration side of the per-line loop of `analyze_file`: every category
and every sub-rule is tested with `re.search`; each hit appends a match. -/
def lineIntegration (path : String) (n : Nat) (line : List Char) : List IntegrationMatch :=
  integrationCatalog.flatMap (fun pc =>
    pc.2.filterMap (fun sp =>
      if searchRx sp.2 line then some ⟨pc.1, sp.1, path, n, stripStr line⟩
      else none))

/-- The per-file result dict of `analyze_file`. -/
structure FileResults where
  demographic_data : DemoMap
  integration_patterns : List IntegrationMatch
deriving DecidableEq

/-- Line loop of `analyze_file` (`enumerate(content, 1)`), accumulating into
the per-file results. -/
def analyzeGo (path : String) : List String → Nat → DemoMap → List IntegrationMatch → FileResults
  | [], _, d, ips => ⟨d, ips⟩
  | line :: rest, n, d, ips =>
    analyzeGo path rest (n + 1) (analyzeLineDemo path n line.data d)
      (ips ++ lineIntegration path n line.data)

/-- Model of `CodeAnalyzer.analyze_file`.  `none` content means opening or
decoding the file raised: the exception is caught and logged and the empty
result dict is returned. -/
def analyze_file (path : String) (content : Option (List String)) : FileResults :=
  match content with
  | none => ⟨[], []⟩
  | some lines => analyzeGo path lines 1 [] []

/-- One entry of `summary.file_details`. -/
structure FileDetail where
  file_path : String
  demographic_fields_found : Nat
  integration_patterns_found : Nat
deriving DecidableEq

/-- The aggregate result dict built by `scan_repository`/`update_results`
(metadata omitted: constant strings and timestamps). -/
structure ReportModel where
  demographic_data : DemoMap
  integration_patterns : List IntegrationMatch
  files_analyzed : Nat
  unique_demographic_fields : Finset String
  demographic_fields_found : Nat
  integration_patterns_found : Nat
  file_details : List FileDetail
deriving DecidableEq

/-- The empty result dict created at the top of `scan_repository`. -/
def initModel : ReportModel :=
  { demographic_data := []
    integration_patterns := []
    files_analyzed := 0
    unique_demographic_fields := ∅
    demographic_fields_found := 0
    integration_patterns_found := 0
    file_details := [] }

/-- Total occurrences of a field map: `sum(len(data.occurrences))`. -/
def fmCount (fm : FieldMap) : Nat := (fm.map (fun f => f.2.occurrences.length)).sum

/-- Total occurrences of a demographic map, over all files and fields. -/
def sumOcc (d : DemoMap) : Nat := (d.map (fun fe => fmCount fe.2)).sum

/-- Extend the occurrence list of `field` (which must be present). -/
def extendFieldEntry : FieldMap → String → List Occurrence → FieldMap
  | [], _, _ => []
  | (f, d) :: rest, field, occs =>
    if f = field then (f, ⟨d.data_type, d.occurrences ++ occs⟩) :: rest
    else (f, d) :: extendFieldEntry rest field occs

/-- One step of the field merge of `update_results`: a new field is inserted
as given, an existing field has the occurrences concatenated (its
`data_type` is kept). -/
def mergeFieldStep (fm : FieldMap) (e : String × FieldData) : FieldMap :=
  match aLookup e.1 fm with
  | none => fm ++ [e]
  | some _ => extendFieldEntry fm e.1 e.2.occurrences

/-- Field-level merge of `update_results`. -/
def mergeFields (main incoming : FieldMap) : FieldMap :=
  incoming.foldl mergeFieldStep main

/-- One step of the file merge of `update_results`: an unseen file keeps its
whole field map, a seen file has the field maps merged. -/
def mergeDemoStep (d : DemoMap) (e : String × FieldMap) : DemoMap :=
  match aLookup e.1 d with
  | none => d ++ [e]
  | some _ => updateFileEntry d e.1 (fun fm => mergeFields fm e.2)

/-- File-level merge of `update_results`. -/
def mergeDemo (main incoming : DemoMap) : DemoMap :=
  incoming.foldl mergeDemoStep main

/-- Model of `CodeAnalyzer.update_results`: merge one file result into the
running model.  The summary totals `demographic_fields_found` and
`integration_patterns_found` are recomputed from the merged state, not
incremented; the per-file counts are appended to `file_details`. -/
def update_results (m : ReportModel) (fr : FileResults) (path : String) : ReportModel :=
  let d := mergeDemo m.demographic_data fr.demographic_data
  let ip := m.integration_patterns ++ fr.integration_patterns
  { demographic_data := d
    integration_patterns := ip
    files_analyzed := m.files_analyzed
    unique_demographic_fields :=
      fr.demographic_data.foldl (fun s fe => s ∪ (fe.2.map Prod.fst).toFinset)
        m.unique_demographic_fields
    demographic_fields_found := sumOcc d
    integration_patterns_found := ip.length
    file_details := m.file_details ++
      [⟨path, sumOcc fr.demographic_data, fr.integration_patterns.length⟩] }

/-- Loop body of `scan_repository`: analyze one file, fold it in and count
it in `files_analyzed` — unconditionally, also when the file was unreadable. -/
def scanStep (m : ReportModel) (pc : String × Option (List String)) : ReportModel :=
  let m2 := update_results m (analyze_file pc.1 pc.2) pc.1
  { m2 with files_analyzed := m2.files_analyzed + 1 }

/-- The scan loop of `scan_repository` over the enumerated files, each given
as path plus readable content (`none`: unreadable). -/
def scan_repository (files : List (String × Option (List String))) : ReportModel :=
  files.foldl scanStep initModel

/-- The extension allow-list `supported_extensions`. -/
def supported_extensions : List String :=
  [".py", ".java", ".js", ".ts", ".cs", ".php", ".rb", ".xsd"]

/-- Model of `Path.suffix`: the final dotted extension of the basename,
empty when the basename has no dot after its first character. -/
def pathSuffix (p : String) : String :=
  let base := (p.data.reverse.takeWhile (fun c => c != '/')).reverse
  let extRev := base.reverse.takeWhile (fun c => c != '.')
  if extRev.length + 1 < base.length then String.mk ('.' :: extRev.reverse) else ""

/-- The filesystem under the scan root, as `os.walk` sees it: either the
root is missing or not traversable, or it yields a list of files. -/
inductive FileSystem where
  | missingRoot : FileSystem
  | present : List (String × Option (List String)) → FileSystem

/-- Model of `get_code_files`.  `os.walk` is called with the default
`onerror=None`, which silently ignores the error raised by `scandir` on a
missing or non-traversable root, so the walk yields no entries at all and
the function returns the empty list rather than raising. -/
def get_code_files (fs : FileSystem) : List (String × Option (List String)) :=
  match fs with
  | .missingRoot => []
  | .present entries =>
    entries.filter (fun e => supported_extensions.contains (pathSuffix e.1))

/-- Errors `scan_repository` could re-raise from its try block. -/
inductive ScanError where
  | scanException : ScanError
deriving DecidableEq

/-- Model of `CodeAnalyzer.scan_repository` from the filesystem: enumerate,
fold every file, return the results dict.  No step of the loop raises
(`analyze_file` swallows per-file errors and `os.walk` swallows root
errors), so the error branch of the try block is never taken here; it is
reachable only through I/O failures of report generation, which is outside
the engine. -/
def scan_repositoryFS (fs : FileSystem) : Except ScanError ReportModel :=
  .ok (scan_repository (get_code_files fs))

/-- Occurrence-list length recorded in a model for `(file, field)`, zero
when absent. -/
def occLen (m : ReportModel) (file field : String) : Nat :=
  match aLookup file m.demographic_data with
  | none => 0
  | some fm =>
    match aLookup field fm with
    | none => 0
    | some fd => fd.occurrences.length

/-- Python `math.ceil(len / num)` for positive `num`. -/
def records_per_file (len num : Nat) : Nat := (len + num - 1) / num

/-- The slices `data[i*rpf : min((i+1)*rpf, len)]` for `i in range(num)`,
emitted only when `i*rpf < len` (`take` caps at the list end exactly as the
`min` does). -/
def chunkSlices {α : Type} (data : List α) (num rpf : Nat) : List (List α) :=
  (List.range num).filterMap (fun i =>
    if i * rpf < data.length then some ((data.drop (i * rpf)).take rpf) else none)

/-- Model of `CodeAnalyzer.export_demographic_to_files`: the list of
exported chunks, in export order (writing the files is I/O). -/
def export_demographic_to_files {α : Type} (data : List α) (num_files : Nat) : List (List α) :=
  if data.isEmpty then []
  else chunkSlices data num_files (records_per_file data.length num_files)

/-- Whether `needle` is a leading segment of `hay`. -/
def startsList : List Char → List Char → Bool
  | [], _ => true
  | _ :: _, [] => false
  | a :: as2, b :: bs => a == b && startsList as2 bs

/-- Python substring containment `needle in hay` on character lists. -/
def subOf (needle : List Char) : List Char → Bool
  | [] => startsList needle []
  | c :: rest => startsList needle (c :: rest) || subOf needle rest

/-- Lowercase a character list (ASCII). -/
def lowerList (l : List Char) : List Char := l.map lcChar

/-- Python `pat in col.lower()` for an already-lowercase pattern literal. -/
def containsCI (col : String) (pat : String) : Bool :=
  subOf pat.data (lowerList col.data)

/-- Column resolution of `analyze_excel_demographic_data`: first column
whose lowercased name contains `attr_description`, else first column whose
lowercased name contains `description`, else none. -/
def resolveDescCol (cols : List String) : Option String :=
  match cols.find? (fun c => containsCI c "attr_description") with
  | some c => some c
  | none => cols.find? (fun c => containsCI c "description")

/-- The keyword list `demographic_keywords` of the spreadsheet path. -/
def demographic_keywords : List String :=
  ["embossed name", "embossed company name", "primary name", "secondary name",
   "legal name", "dba name", "double byte name", "gender", "dob", "gov ids",
   "home address", "business address", "alternate address", "temporary address",
   "other address", "additional addresses", "home phone", "alternate home phone",
   "business phone", "alternate business phone", "mobile phone",
   "alternate mobile phone", "attorney phone", "fax", "ani phone", "other phone",
   "additional phone", "servicing email", "estatement email", "business email",
   "other email address", "preference language cd", "member since date",
   "name", "address", "phone", "email"]

/-- The fatal configuration error of the spreadsheet path. -/
inductive ExcelError where
  | missingDescriptionColumn : ExcelError
deriving DecidableEq

/-- Result summary of `analyze_excel_demographic_data`. -/
structure ExcelResult where
  total_records : Nat
  demographic_data : List (List (String × String))
  demographic_fields_found : Nat
  exported_chunks : List (List (List (String × String)))
deriving DecidableEq

/-- Cell of `row` under column `col` (`none` models NaN or a missing cell). -/
def rowValue (cols : List String) (row : List (Option String)) (col : String) : Option String :=
  match cols.findIdx? (fun c2 => c2 == col) with
  | some i => (row.get? i).getD none
  | none => none

/-- Row classification: the description cell is present and its lowercased
text contains at least one keyword. -/
def rowMatches (cols : List String) (descCol : String) (row : List (Option String)) : Bool :=
  match rowValue cols row descCol with
  | some v => demographic_keywords.any (fun k => subOf k.data (lowerList v.data))
  | none => false

/-- Projection of a matched row: its non-empty cells, in column order. -/
def projectRow (cols : List String) (row : List (Option String)) : List (String × String) :=
  (cols.zip row).filterMap (fun cv => cv.2.map (fun v => (cv.1, v)))

/-- Model of `CodeAnalyzer.analyze_excel_demographic_data` on a parsed
table: resolve the description column or raise the configuration error
before anything is classified or exported; otherwise collect the matched
row projections and the export chunks (N = 20). -/
def analyze_excel_demographic_data (cols : List String)
    (rows : List (List (Option String))) : Except ExcelError ExcelResult :=
  match resolveDescCol cols with
  | none => .error .missingDescriptionColumn
  | some dc =>
    let matched := (rows.filter (rowMatches cols dc)).map (projectRow cols)
    .ok { total_records := rows.length
          demographic_data := matched
          demographic_fields_found := matched.length
          exported_chunks := export_demographic_to_files matched 20 }

/-! ## Proof-support definitions -/

/-- Recursive form of the chunk loop: take one chunk of `rpf` records and
continue on the rest, at most `n` times. -/
def chunksGo {α : Type} (rpf : Nat) : Nat → List α → List (List α)
  | 0, _ => []
  | n + 1, l => if l.isEmpty then [] else l.take rpf :: chunksGo rpf n (l.drop rpf)

/-- Merge of two optional field entries, as `update_results` combines them. -/
def combineFD : Option FieldData → Option FieldData → Option FieldData
  | x, none => x
  | none, some d => some d
  | some d, some d2 => some ⟨d.data_type, d.occurrences ++ d2.occurrences⟩

/-- Invariant of the per-file demographic dict built by `analyze_file`: it
is keyed by the single analyzed path and its field keys are distinct. -/
def demoInv (path : String) (d : DemoMap) : Prop :=
  d = [] ∨ ∃ fm, d = [(path, fm)] ∧ (fm.map Prod.fst).Nodup

/-- Folding one file result into the empty model (single pass). -/
def foldOnce (p : String) (lines : List String) : ReportModel :=
  update_results initModel (analyze_file p (some lines)) p

/-- Folding the same file result in a second time (re-run of the file). -/
def foldTwice (p : String) (lines : List String) : ReportModel :=
  update_results (foldOnce p lines) (analyze_file p (some lines)) p

/-- The `file_details` entries contributed by a list of scanned files. -/
def detailsOf (files : List (String × Option (List String))) : List FileDetail :=
  files.map (fun pc =>
    ⟨pc.1, sumOcc (analyze_file pc.1 pc.2).demographic_data,
      (analyze_file pc.1 pc.2).integration_patterns.length⟩)

/-- Integration matches of a run of lines numbered from `k`. -/
def intOf (path : String) : List String → Nat → List IntegrationMatch
  | [], _ => []
  | l :: ls, k => lineIntegration path k l.data ++ intOf path ls (k + 1)

/-- The `(pattern_type, sub_type)` name pairs of any catalog. -/
def pairsOf (ctl : List (String × List (String × Rx))) : List (String × String) :=
  ctl.flatMap (fun pc => pc.2.map (fun sp => (pc.1, sp.1)))

/-- The `(pattern_type, sub_type, pattern)` triples of any catalog. -/
def triplesOf (ctl : List (String × List (String × Rx))) : List (String × String × Rx) :=
  ctl.flatMap (fun pc => pc.2.map (fun sp => (pc.1, sp.1, sp.2)))

/-- The `(pattern_type, sub_type)` name pairs of the catalog. -/
def integrationPairs : List (String × String) :=
  pairsOf integrationCatalog

/-- Selector for the integration matches of rule `(cat, sub)` at line `n`. -/
def ipred (cat sub : String) (n : Nat) : IntegrationMatch → Bool :=
  fun mch => mch.pattern_type == cat && mch.sub_type == sub && mch.line_number == n

/-- The per-category match list for one line, with its category name, line
number and snippet. -/
def perCatMatches (ctg path : String) (n : Nat) (line : List Char)
    (subs : List (String × Rx)) : List IntegrationMatch :=
  subs.filterMap (fun sp =>
    if searchRx sp.2 line then some ⟨ctg, sp.1, path, n, stripStr line⟩ else none)

/-! ## Helper lemmas -/

/-- Summary recompute in `update_results`: the stored total always equals
the sum over the merged map, whatever the incoming model held. -/
theorem update_found_eq (m : ReportModel) (fr : FileResults) (p : String) :
    (update_results m fr p).demographic_fields_found
      = sumOcc (update_results m fr p).demographic_data := rfl

/-- Same for the integration total. -/
theorem update_int_found_eq (m : ReportModel) (fr : FileResults) (p : String) :
    (update_results m fr p).integration_patterns_found
      = (update_results m fr p).integration_patterns.length := rfl

/-- One scan step also leaves the recomputed demographic total in place. -/
theorem scanStep_found (m : ReportModel) (pc : String × Option (List String)) :
    (scanStep m pc).demographic_fields_found = sumOcc (scanStep m pc).demographic_data :=
  update_found_eq m (analyze_file pc.1 pc.2) pc.1

/-- One scan step also leaves the recomputed integration total in place. -/
theorem scanStep_int_found (m : ReportModel) (pc : String × Option (List String)) :
    (scanStep m pc).integration_patterns_found = (scanStep m pc).integration_patterns.length :=
  update_int_found_eq m (analyze_file pc.1 pc.2) pc.1

/-- The demographic cross-check survives any run of scan steps. -/
theorem scan_found_inv : ∀ (files : List (String × Option (List String))) (m : ReportModel),
    m.demographic_fields_found = sumOcc m.demographic_data →
    (files.foldl scanStep m).demographic_fields_found
      = sumOcc ((files.foldl scanStep m)).demographic_data := by
  intro files
  induction files with
  | nil => intro m h; simpa using h
  | cons f fs ih => intro m _; exact ih (scanStep m f) (scanStep_found m f)

/-- The integration cross-check survives any run of scan steps. -/
theorem scan_int_inv : ∀ (files : List (String × Option (List String))) (m : ReportModel),
    m.integration_patterns_found = m.integration_patterns.length →
    (files.foldl scanStep m).integration_patterns_found
      = ((files.foldl scanStep m)).integration_patterns.length := by
  intro files
  induction files with
  | nil => intro m h; simpa using h
  | cons f fs ih => intro m _; exact ih (scanStep m f) (scanStep_int_found m f)

/-- Cross-check invariant of every scanned model. -/
theorem scan_repository_found (files : List (String × Option (List String))) :
    (scan_repository files).demographic_fields_found
      = sumOcc (scan_repository files).demographic_data :=
  scan_found_inv files initModel rfl

/-- Integration cross-check invariant of every scanned model. -/
theorem scan_repository_int_found (files : List (String × Option (List String))) :
    (scan_repository files).integration_patterns_found
      = (scan_repository files).integration_patterns.length :=
  scan_int_inv files initModel rfl

/-! ## Claim theorems -/

/-- C1: after folding any sequence of files through `update_results`, the
summary total `demographic_fields_found` equals the sum over all files and
fields of the occurrence-list lengths in `demographic_data`; moreover the
total written by any single `update_results` call is the recomputed sum of
the merged state, whatever total the incoming model carried. -/
theorem claim_C1_total_is_recomputed :
    (∀ (m : ReportModel) (fr : FileResults) (p : String),
      (update_results m fr p).demographic_fields_found
        = sumOcc (update_results m fr p).demographic_data)
    ∧ ∀ (files : List (String × Option (List String))),
      (scan_repository files).demographic_fields_found
        = sumOcc (scan_repository files).demographic_data :=
  ⟨update_found_eq, scan_repository_found⟩

/-- C7: the line `String home_address = x;` yields exactly one demographic
match, field `home_address` of category `address` at line 1; the match is
case-insensitive (the uppercase line matches too, recording the verbatim
uppercase text); and with identifier `home_address2` the word-boundary rule
rejects every pattern, so no demographic match is recorded. -/
theorem claim_C7_home_address :
    (analyze_file "f.java" (some ["String home_address = x;"])).demographic_data
      = [("f.java", [("home_address",
          ⟨"address", [⟨1, "String home_address = x;"⟩]⟩)])]
    ∧ (analyze_file "f.java" (some ["STRING HOME_ADDRESS = X;"])).demographic_data
      = [("f.java", [("HOME_ADDRESS",
          ⟨"address", [⟨1, "STRING HOME_ADDRESS = X;"⟩]⟩)])]
    ∧ (analyze_file "f.java" (some ["String home_address2 = x;"])).demographic_data = [] := by
  exact ⟨rfl, rfl, rfl⟩

/-- C10: matching is case-insensitive but the recorded field name is the
verbatim matched text, so `EMAIL` and `email` become two distinct keys of
the per-file field map and two distinct members of the unique demographic
field set. -/
theorem claim_C10_verbatim_keys :
    (analyze_file "f.py" (some ["EMAIL", "email"])).demographic_data
      = [("f.py", [("EMAIL", ⟨"email", [⟨1, "EMAIL"⟩]⟩),
                   ("email", ⟨"email", [⟨2, "email"⟩]⟩)])]
    ∧ (update_results initModel (analyze_file "f.py" (some ["EMAIL", "email"])) "f.py").unique_demographic_fields
        = {"EMAIL", "email"}
    ∧ ("EMAIL" : String) ≠ "email" := by
  refine ⟨rfl, ?_, by decide⟩
  decide

/-- C2 counterexample: with 47 matched records and N = 20 the emitted chunk
sizes do not begin with 16 full chunks of 3 — the 16th chunk already holds
only 2 records, so the claimed shape "16 full chunks of 3 followed by a
final partial chunk" is false for the code. -/
theorem claim_C2_counterexample :
    ((export_demographic_to_files (List.range 47) 20).map List.length).take 16
      ≠ List.replicate 16 3 := by decide

/-- C2 (amended): with exactly 47 matched records and N = 20 the chunk size
is ceil(47/20) = 3 and the partition consists of 15 full chunks of 3
followed by one final partial chunk of 2 — 16 chunks whose sizes sum to
exactly 47 and whose concatenation is the record sequence. -/
theorem claim_C2_scenario_c :
    records_per_file 47 20 = 3
    ∧ (export_demographic_to_files (List.range 47) 20).map List.length
        = List.replicate 15 3 ++ [2]
    ∧ ((export_demographic_to_files (List.range 47) 20).map List.length).sum = 47
    ∧ (export_demographic_to_files (List.range 47) 20).flatten = List.range 47 := by
  refine ⟨rfl, by decide, by decide, by decide⟩

/-- C3 counterexample: with a missing (or non-traversable) scan root the
scan does not abort — `os.walk` silently yields no entries, so
`scan_repository` returns the empty ReportModel as a successful result and
no error reaches the caller. -/
theorem claim_C3_counterexample :
    scan_repositoryFS FileSystem.missingRoot = Except.ok initModel
    ∧ ∀ e : ScanError, scan_repositoryFS FileSystem.missingRoot ≠ Except.error e := by
  refine ⟨rfl, fun e h => ?_⟩
  exact Except.noConfusion h

/-- C3 (amended): a missing or non-traversable root is silently swallowed
by `os.walk`, so `scan_repository` completes normally for every filesystem;
on a missing root it returns the empty ReportModel — `files_analyzed = 0`
and no data — as a valid successful result rather than propagating a fatal
error. -/
theorem claim_C3_missing_root_succeeds :
    (∀ fs : FileSystem, ∃ m : ReportModel, scan_repositoryFS fs = Except.ok m)
    ∧ scan_repositoryFS FileSystem.missingRoot = Except.ok initModel
    ∧ initModel.files_analyzed = 0
    ∧ initModel.demographic_data = []
    ∧ initModel.integration_patterns = [] := by
  exact ⟨fun fs => ⟨scan_repository (get_code_files fs), rfl⟩, rfl, rfl, rfl, rfl⟩

/-- C4 counterexample: a scan of two enumerated files of which the second
is unreadable reports `files_analyzed = 2` — the unreadable file is counted,
not excluded as the claim states (which would give 1). -/
theorem claim_C4_counterexample :
    (scan_repository [("a.py", some ["email = 1"]), ("b.py", none)]).files_analyzed = 2
    ∧ (scan_repository [("a.py", some ["email = 1"]), ("b.py", none)]).files_analyzed ≠ 1 := by
  exact ⟨rfl, by decide⟩

/-- An unreadable file yields the empty result dict. -/
theorem analyze_file_none (p : String) : analyze_file p none = ⟨[], []⟩ := rfl

/-- Scan steps only ever increment `files_analyzed` by one. -/
theorem scanStep_files (m : ReportModel) (pc : String × Option (List String)) :
    (scanStep m pc).files_analyzed = m.files_analyzed + 1 := rfl

/-- Every scanned file adds one to `files_analyzed`, readable or not. -/
theorem scan_foldl_files : ∀ (fs : List (String × Option (List String))) (m : ReportModel),
    (List.foldl scanStep m fs).files_analyzed = m.files_analyzed + fs.length := by
  intro fs
  induction fs with
  | nil => intro m; rfl
  | cons f t ih =>
    intro m
    have h := ih (scanStep m f)
    simp only [List.foldl_cons, h, scanStep_files, List.length_cons]
    omega

/-- Every scanned file appends exactly its own detail record. -/
theorem scan_foldl_details : ∀ (fs : List (String × Option (List String))) (m : ReportModel),
    (List.foldl scanStep m fs).file_details = m.file_details ++ detailsOf fs := by
  intro fs
  induction fs with
  | nil => intro m; simp [detailsOf]
  | cons f t ih =>
    intro m
    have h := ih (scanStep m f)
    simp only [List.foldl_cons, h, detailsOf, List.map_cons]
    show (scanStep m f).file_details ++ _ = _
    simp [scanStep, update_results, detailsOf]

/-- Scan steps applied to models agreeing on the data components keep them
in agreement (the summary counters do not feed back into the data). -/
theorem scanStep_congr (a b : ReportModel) (pc : String × Option (List String))
    (h1 : a.demographic_data = b.demographic_data)
    (h2 : a.integration_patterns = b.integration_patterns)
    (h3 : a.unique_demographic_fields = b.unique_demographic_fields) :
    (scanStep a pc).demographic_data = (scanStep b pc).demographic_data
    ∧ (scanStep a pc).integration_patterns = (scanStep b pc).integration_patterns
    ∧ (scanStep a pc).unique_demographic_fields = (scanStep b pc).unique_demographic_fields := by
  refine ⟨?_, ?_, ?_⟩ <;> simp [scanStep, update_results, h1, h2, h3]

/-- Fold version of `scanStep_congr`. -/
theorem scan_foldl_congr : ∀ (fs : List (String × Option (List String))) (a b : ReportModel),
    a.demographic_data = b.demographic_data →
    a.integration_patterns = b.integration_patterns →
    a.unique_demographic_fields = b.unique_demographic_fields →
    (List.foldl scanStep a fs).demographic_data = (List.foldl scanStep b fs).demographic_data
    ∧ (List.foldl scanStep a fs).integration_patterns
        = (List.foldl scanStep b fs).integration_patterns
    ∧ (List.foldl scanStep a fs).unique_demographic_fields
        = (List.foldl scanStep b fs).unique_demographic_fields := by
  intro fs
  induction fs with
  | nil => intro a b h1 h2 h3; exact ⟨h1, h2, h3⟩
  | cons f t ih =>
    intro a b h1 h2 h3
    obtain ⟨g1, g2, g3⟩ := scanStep_congr a b f h1 h2 h3
    exact ih (scanStep a f) (scanStep b f) g1 g2 g3

/-- C4 (amended): an unreadable file among the enumerated files does not
stop classification — the final model carries exactly the data of the scan
without it — and it contributes zero matches; but `files_analyzed` counts
every enumerated file including the unreadable one, and a zero-count detail
entry is recorded for it in scan order. -/
theorem claim_C4_unreadable_continues :
    ∀ (pre post : List (String × Option (List String))) (p : String),
    (scan_repository (pre ++ (p, none) :: post)).demographic_data
      = (scan_repository (pre ++ post)).demographic_data
    ∧ (scan_repository (pre ++ (p, none) :: post)).integration_patterns
      = (scan_repository (pre ++ post)).integration_patterns
    ∧ (scan_repository (pre ++ (p, none) :: post)).unique_demographic_fields
      = (scan_repository (pre ++ post)).unique_demographic_fields
    ∧ (scan_repository (pre ++ (p, none) :: post)).demographic_fields_found
      = (scan_repository (pre ++ post)).demographic_fields_found
    ∧ (scan_repository (pre ++ (p, none) :: post)).files_analyzed
      = pre.length + post.length + 1
    ∧ (scan_repository (pre ++ (p, none) :: post)).file_details
      = detailsOf pre ++ ⟨p, 0, 0⟩ :: detailsOf post := by
  intro pre post p
  have hsplit : scan_repository (pre ++ (p, none) :: post)
      = List.foldl scanStep (scanStep (List.foldl scanStep initModel pre) (p, none)) post := by
    simp [scan_repository, List.foldl_append]
  have hsplit2 : scan_repository (pre ++ post)
      = List.foldl scanStep (List.foldl scanStep initModel pre) post := by
    simp [scan_repository, List.foldl_append]
  have h1 : (scanStep (List.foldl scanStep initModel pre) (p, none)).demographic_data
      = (List.foldl scanStep initModel pre).demographic_data := rfl
  have h2 : (scanStep (List.foldl scanStep initModel pre) (p, none)).integration_patterns
      = (List.foldl scanStep initModel pre).integration_patterns := by
    simp [scanStep, update_results, analyze_file]
  have h3 : (scanStep (List.foldl scanStep initModel pre) (p, none)).unique_demographic_fields
      = (List.foldl scanStep initModel pre).unique_demographic_fields := rfl
  obtain ⟨g1, g2, g3⟩ := scan_foldl_congr post _ _ h1 h2 h3
  refine ⟨?_, ?_, ?_, ?_, ?_, ?_⟩
  · rw [hsplit, hsplit2]; exact g1
  · rw [hsplit, hsplit2]; exact g2
  · rw [hsplit, hsplit2]; exact g3
  · have ha := scan_repository_found (pre ++ (p, none) :: post)
    have hb := scan_repository_found (pre ++ post)
    rw [ha, hb, hsplit, hsplit2, g1]
  · rw [hsplit]
    have := scan_foldl_files post (scanStep (List.foldl scanStep initModel pre) (p, none))
    rw [this, scanStep_files, scan_foldl_files pre initModel]
    simp [initModel]
    omega
  · rw [hsplit]
    rw [scan_foldl_details post _]
    show (scanStep (List.foldl scanStep initModel pre) (p, none)).file_details ++ _ = _
    have hd : (scanStep (List.foldl scanStep initModel pre) (p, none)).file_details
        = (List.foldl scanStep initModel pre).file_details ++ [⟨p, 0, 0⟩] := rfl
    rw [hd, scan_foldl_details pre initModel]
    simp [initModel]

/-- Chunking an empty list gives no chunks. -/
theorem chunksGo_nil {α : Type} (rpf n : Nat) : chunksGo rpf n ([] : List α) = [] := by
  cases n <;> rfl

/-- The slice loop of the source equals the recursive chunking. -/
theorem chunkSlices_eq_go {α : Type} : ∀ (n : Nat) (l : List α) (rpf : Nat), 0 < rpf →
    chunkSlices l n rpf = chunksGo rpf n l := by
  intro n
  induction n with
  | zero => intro l rpf _; rfl
  | succ n ih =>
    intro l rpf hr
    unfold chunkSlices
    rw [List.range_succ_eq_map, List.filterMap_cons, List.filterMap_map]
    have hfun : ((fun i => if i * rpf < l.length then some ((l.drop (i * rpf)).take rpf) else none) ∘ Nat.succ)
        = (fun i => if i * rpf < (l.drop rpf).length then
            some (((l.drop rpf).drop (i * rpf)).take rpf) else none) := by
      funext i
      simp only [Function.comp_apply, List.drop_drop, List.length_drop]
      have h2 : (i + 1) * rpf = rpf + i * rpf := by
        rw [Nat.succ_mul]; omega
      rw [h2]
      by_cases hc : rpf + i * rpf < l.length
      · rw [if_pos hc, if_pos (by omega)]
      · rw [if_neg hc, if_neg (by omega)]
    rw [hfun]
    have htail := ih (l.drop rpf) rpf hr
    unfold chunkSlices at htail
    rw [htail]
    cases l with
    | nil =>
      simp [chunksGo_nil, chunksGo]
    | cons a t =>
      simp only [Nat.zero_mul, List.length_cons, Nat.zero_lt_succ, if_pos, List.drop_zero]
      simp [chunksGo]

/-- Chunking covers the whole list when enough chunks are allowed. -/
theorem chunksGo_flatten {α : Type} : ∀ (n : Nat) (l : List α) (rpf : Nat), 0 < rpf →
    l.length ≤ n * rpf → (chunksGo rpf n l).flatten = l := by
  intro n
  induction n with
  | zero =>
    intro l rpf _ hl
    simp only [Nat.zero_mul, Nat.le_zero] at hl
    rw [List.eq_nil_of_length_eq_zero hl]
    rfl
  | succ n ih =>
    intro l rpf hr hl
    cases l with
    | nil => rw [chunksGo_nil]; rfl
    | cons a t =>
      show (chunksGo rpf (n + 1) (a :: t)).flatten = a :: t
      rw [chunksGo]
      rw [if_neg (by simp)]
      rw [List.flatten_cons]
      rw [ih ((a :: t).drop rpf) rpf hr
        (by rw [List.length_drop]; rw [Nat.succ_mul] at hl; omega)]
      exact List.take_append_drop rpf (a :: t)

/-- No chunk is longer than the chunk size. -/
theorem chunksGo_length_le {α : Type} : ∀ (n : Nat) (l : List α) (rpf : Nat) (c : List α),
    c ∈ chunksGo rpf n l → c.length ≤ rpf := by
  intro n
  induction n with
  | zero => intro l rpf c h; simp [chunksGo] at h
  | succ n ih =>
    intro l rpf c h
    rw [chunksGo] at h
    by_cases he : l.isEmpty
    · rw [if_pos he] at h; simp at h
    · rw [if_neg he] at h
      rcases List.mem_cons.mp h with h1 | h2
      · rw [h1]; exact List.length_take_le ..
      · exact ih _ _ _ h2

/-- Every chunk but the last is full. -/
theorem chunksGo_dropLast {α : Type} : ∀ (n : Nat) (l : List α) (rpf : Nat),
    ∀ c ∈ (chunksGo rpf n l).dropLast, c.length = rpf := by
  intro n
  induction n with
  | zero => intro l rpf c h; simp [chunksGo] at h
  | succ n ih =>
    intro l rpf c h
    rw [chunksGo] at h
    by_cases he : l.isEmpty
    · rw [if_pos he] at h; simp at h
    · rw [if_neg he] at h
      cases hg : chunksGo rpf n (l.drop rpf) with
      | nil => rw [hg] at h; simp at h
      | cons x xs =>
        rw [hg] at h
        have hdl : (l.take rpf :: x :: xs).dropLast = l.take rpf :: (x :: xs).dropLast := rfl
        rw [hdl] at h
        rcases List.mem_cons.mp h with h1 | h2
        · have hne : l.drop rpf ≠ [] := by
            intro hd2
            rw [hd2, chunksGo_nil] at hg
            exact List.cons_ne_nil x xs hg.symm
          have hlt : rpf < l.length := by
            by_contra hge
            push_neg at hge
            exact hne (List.drop_eq_nil_of_le hge)
          rw [h1, List.length_take]
          omega
        · rw [← hg] at h2
          exact ih _ _ c h2

/-- A list of numbers all bounded by `r` whose every non-final member
equals `r` is non-increasing. -/
theorem sizes_nonincreasing : ∀ (L : List Nat) (r : Nat),
    (∀ x ∈ L.dropLast, x = r) → (∀ x ∈ L, x ≤ r) →
    List.Chain' (fun a b => b ≤ a) L := by
  intro L
  induction L with
  | nil => intro r _ _; simp
  | cons a t ih =>
    intro r hd hle
    cases t with
    | nil => simp
    | cons b t2 =>
      rw [List.chain'_cons]
      refine ⟨?_, ?_⟩
      · have ha : a = r := hd a (by
          have : (a :: b :: t2).dropLast = a :: (b :: t2).dropLast := rfl
          rw [this]; exact List.mem_cons_self a _)
        have hb : b ≤ r := hle b (by simp)
        omega
      · refine ih r (fun x hx => ?_) (fun x hx => hle x (List.mem_cons_of_mem _ hx))
        refine hd x ?_
        have : (a :: b :: t2).dropLast = a :: (b :: t2).dropLast := rfl
        rw [this]
        exact List.mem_cons_of_mem _ hx

/-- C5: exporting any record list with N = 20 partitions it exactly: the
chunks concatenate back to the record sequence (so the sizes sum to R and
no record is duplicated between chunks), every chunk is bounded by
ceil(R/20), every non-final chunk is exactly full, and the size sequence
is non-increasing with only the final chunk possibly shorter. -/
theorem claim_C5_partition : ∀ (data : List Nat),
    (export_demographic_to_files data 20).flatten = data
    ∧ ((export_demographic_to_files data 20).map List.length).sum = data.length
    ∧ (∀ c ∈ (export_demographic_to_files data 20).dropLast,
        c.length = records_per_file data.length 20)
    ∧ (∀ c ∈ export_demographic_to_files data 20,
        c.length ≤ records_per_file data.length 20)
    ∧ List.Chain' (fun a b => b ≤ a)
        ((export_demographic_to_files data 20).map List.length) := by
  intro data
  by_cases hd : data.isEmpty
  · have hnil : data = [] := List.isEmpty_iff.mp hd
    subst hnil
    exact ⟨rfl, rfl, by simp [export_demographic_to_files], by simp [export_demographic_to_files],
      by simp [export_demographic_to_files]⟩
  · have hlen : 0 < data.length := by
      cases data with
      | nil => simp at hd
      | cons a t => simp
    have hrp : 0 < records_per_file data.length 20 := by
      unfold records_per_file
      have h1 := Nat.div_add_mod (data.length + 20 - 1) 20
      have h2 : (data.length + 20 - 1) % 20 < 20 := Nat.mod_lt _ (by omega)
      omega
    have hcov : data.length ≤ 20 * records_per_file data.length 20 := by
      unfold records_per_file
      have h1 := Nat.div_add_mod (data.length + 20 - 1) 20
      have h2 : (data.length + 20 - 1) % 20 < 20 := Nat.mod_lt _ (by omega)
      omega
    have hgo : export_demographic_to_files data 20
        = chunksGo (records_per_file data.length 20) 20 data := by
      unfold export_demographic_to_files
      rw [if_neg (by simp [hd])]
      exact chunkSlices_eq_go 20 data _ hrp
    refine ⟨?_, ?_, ?_, ?_, ?_⟩
    · rw [hgo]
      exact chunksGo_flatten 20 data _ hrp (by omega)
    · rw [← List.length_flatten, hgo,
        chunksGo_flatten 20 data _ hrp (by omega)]
    · rw [hgo]
      exact chunksGo_dropLast 20 data _
    · rw [hgo]
      exact chunksGo_length_le 20 data _
    · refine sizes_nonincreasing _ (records_per_file data.length 20) ?_ ?_
      · intro x hx
        rw [← List.map_dropLast] at hx
        obtain ⟨c, hc, hcx⟩ := List.mem_map.mp hx
        rw [← hcx]
        rw [hgo] at hc
        exact chunksGo_dropLast 20 data _ c hc
      · intro x hx
        obtain ⟨c, hc, hcx⟩ := List.mem_map.mp hx
        rw [← hcx]
        rw [hgo] at hc
        exact chunksGo_length_le 20 data _ c hc

/-- C5 witness at 47 records: the chunks flatten back to the sequence and
the concrete final chunk `[45, 46]` (a member of the output) respects the
ceil(47/20) bound. -/
theorem claim_C5_partition_witness :
    (export_demographic_to_files (List.range 47) 20).flatten = List.range 47
    ∧ ([45, 46] : List Nat).length ≤ records_per_file (List.range 47).length 20 :=
  ⟨(claim_C5_partition (List.range 47)).1,
   (claim_C5_partition (List.range 47)).2.2.2.1 [45, 46] (by decide)⟩

/-- Characterization of the leading-segment check. -/
theorem startsList_iff : ∀ (n h : List Char), startsList n h = true ↔ ∃ t, n ++ t = h := by
  intro n
  induction n with
  | nil => intro h; simp [startsList]
  | cons a as ih =>
    intro h
    cases h with
    | nil => simp [startsList]
    | cons b bs =>
      simp only [startsList, Bool.and_eq_true, beq_iff_eq]
      rw [ih bs]
      constructor
      · rintro ⟨hab, t, ht⟩
        exact ⟨t, by rw [List.cons_append, hab, ht]⟩
      · rintro ⟨t, ht⟩
        rw [List.cons_append] at ht
        injection ht with h1 h2
        exact ⟨h1, t, h2⟩

/-- Characterization of Python substring containment. -/
theorem subOf_iff : ∀ (h n : List Char), subOf n h = true ↔ ∃ s t, s ++ n ++ t = h := by
  intro h
  induction h with
  | nil =>
    intro n
    show startsList n [] = true ↔ _
    rw [startsList_iff]
    constructor
    · rintro ⟨t, ht⟩; exact ⟨[], t, ht⟩
    · rintro ⟨s, t, ht⟩
      rcases List.append_eq_nil.mp ht with ⟨h1, h2⟩
      rcases List.append_eq_nil.mp h1 with ⟨h3, h4⟩
      exact ⟨t, by rw [h4, h2]; rfl⟩
  | cons c rest ih =>
    intro n
    show (startsList n (c :: rest) || subOf n rest) = true ↔ _
    rw [Bool.or_eq_true, startsList_iff, ih n]
    constructor
    · rintro (⟨t, ht⟩ | ⟨s, t, ht⟩)
      · exact ⟨[], t, by simpa using ht⟩
      · exact ⟨c :: s, t, by rw [← ht]; rfl⟩
    · rintro ⟨s, t, ht⟩
      cases s with
      | nil => exact Or.inl ⟨t, by simpa using ht⟩
      | cons s0 s2 =>
        rw [List.cons_append, List.cons_append] at ht
        injection ht with h1 h2
        exact Or.inr ⟨s2, t, h2⟩

/-- A column name containing `attr_description` also contains `description`. -/
theorem attr_contains_desc (c : String) :
    containsCI c "attr_description" = true → containsCI c "description" = true := by
  intro h
  unfold containsCI at h ⊢
  rw [subOf_iff] at h ⊢
  obtain ⟨s, t, ht⟩ := h
  refine ⟨s ++ ("attr_").data, t, ?_⟩
  rw [← ht]
  have hsplit : ("attr_description").data = ("attr_").data ++ ("description").data := rfl
  rw [hsplit]
  simp [List.append_assoc]

/-- C6 (amended): the spreadsheet path resolves the description column by
containment, not exact name — the first column whose lowercased name
contains `attr_description`, else the first whose lowercased name contains
`description`; when no column name contains `description` (equivalently,
neither probe succeeds) it fails with the configuration error before
classifying or exporting anything. -/
theorem claim_C6_description_column :
    ∀ (cols : List String) (rows : List (List (Option String))),
    ((resolveDescCol cols = none) ↔ ∀ c ∈ cols, containsCI c "description" = false)
    ∧ (resolveDescCol cols = none →
        analyze_excel_demographic_data cols rows
          = Except.error ExcelError.missingDescriptionColumn)
    ∧ (∀ c, resolveDescCol cols = some c → c ∈ cols ∧ containsCI c "description" = true)
    ∧ (∀ c, resolveDescCol cols = some c → containsCI c "attr_description" = false →
        ∀ c2 ∈ cols, containsCI c2 "attr_description" = false) := by
  intro cols rows
  refine ⟨⟨?_, ?_⟩, ?_, ?_, ?_⟩
  · intro h c hc
    unfold resolveDescCol at h
    cases h1 : cols.find? (fun c => containsCI c "attr_description") with
    | some c0 => rw [h1] at h; exact absurd h (by simp)
    | none =>
      rw [h1] at h
      have := List.find?_eq_none.mp h c hc
      simpa using this
  · intro h
    unfold resolveDescCol
    have hattr : cols.find? (fun c => containsCI c "attr_description") = none := by
      refine List.find?_eq_none.mpr (fun c hc => ?_)
      intro hcontra
      have hd := attr_contains_desc c hcontra
      rw [h c hc] at hd
      exact Bool.false_ne_true hd
    rw [hattr]
    refine List.find?_eq_none.mpr (fun c hc => ?_)
    intro hcontra
    rw [h c hc] at hcontra
    exact Bool.false_ne_true hcontra
  · intro h
    unfold analyze_excel_demographic_data
    rw [h]
  · intro c h
    unfold resolveDescCol at h
    cases h1 : cols.find? (fun c => containsCI c "attr_description") with
    | some c0 =>
      rw [h1] at h
      have hc0 : c0 = c := by injection h
      subst hc0
      exact ⟨List.mem_of_find?_eq_some h1,
        attr_contains_desc c0 (by simpa using List.find?_some h1)⟩
    | none =>
      rw [h1] at h
      exact ⟨List.mem_of_find?_eq_some h, by simpa using List.find?_some h⟩
  · intro c h hfalse c2 hc2
    unfold resolveDescCol at h
    cases h1 : cols.find? (fun c => containsCI c "attr_description") with
    | some c0 =>
      rw [h1] at h
      have hc0 : c0 = c := by injection h
      subst hc0
      have := List.find?_some h1
      simp only at this
      rw [hfalse] at this
      exact absurd this (by simp)
    | none =>
      have := List.find?_eq_none.mp h1 c2 hc2
      simpa using this

/-- C6 counterexample: with columns `[attr_description_old,
attr_description]` the code picks `attr_description_old` — the first
column containing `attr_description` — not the exactly-named
`attr_description` column the claim says is preferred. -/
theorem claim_C6_counterexample :
    resolveDescCol ["attr_description_old", "attr_description"] = some "attr_description_old"
    ∧ resolveDescCol ["attr_description_old", "attr_description"] ≠ some "attr_description" := by
  exact ⟨rfl, by decide⟩

/-- C6 witness: a fallback column containing `description` is resolved and
belongs to the column list; a table with no description-like column yields
the configuration error. -/
theorem claim_C6_description_column_witness :
    ("notes_description" ∈ ["id", "notes_description"]
      ∧ containsCI "notes_description" "description" = true)
    ∧ analyze_excel_demographic_data ["id", "qty"] []
        = Except.error ExcelError.missingDescriptionColumn := by
  constructor
  · exact (claim_C6_description_column ["id", "notes_description"] []).2.2.1
      "notes_description" (by decide)
  · exact (claim_C6_description_column ["id", "qty"] []).2.1 (by decide)

/-- Lookup distributes over append of association lists. -/
theorem aLookup_append {β : Type} : ∀ (l1 l2 : List (String × β)) (k : String),
    aLookup k (l1 ++ l2) = match aLookup k l1 with
      | some v => some v
      | none => aLookup k l2 := by
  intro l1
  induction l1 with
  | nil => intro l2 k; rfl
  | cons e t ih =>
    intro l2 k
    obtain ⟨k2, v⟩ := e
    by_cases h : k2 = k
    · simp [aLookup, h]
    · simp [aLookup, h, ih]

/-- Lookup fails exactly on absent keys. -/
theorem aLookup_none_iff {β : Type} : ∀ (l : List (String × β)) (k : String),
    aLookup k l = none ↔ k ∉ l.map Prod.fst := by
  intro l
  induction l with
  | nil => intro k; simp [aLookup]
  | cons e t ih =>
    intro k
    obtain ⟨k2, v⟩ := e
    by_cases h : k2 = k
    · subst h; simp [aLookup]
    · simp [aLookup, h, ih]
      intro hk
      exact fun he => h he.symm


/-- Extending a present field rewrites just that entry. -/
theorem aLookup_extend_eq : ∀ (fm : FieldMap) (f : String) (occs : List Occurrence) (d : FieldData),
    aLookup f fm = some d →
    aLookup f (extendFieldEntry fm f occs) = some ⟨d.data_type, d.occurrences ++ occs⟩ := by
  intro fm
  induction fm with
  | nil => intro f occs d h; simp [aLookup] at h
  | cons e t ih =>
    intro f occs d h
    obtain ⟨k2, v⟩ := e
    by_cases hk : k2 = f
    · subst hk
      have hv : v = d := by simpa [aLookup] using h
      subst hv
      simp [extendFieldEntry, aLookup]
    · have h2 : aLookup f t = some d := by simpa [aLookup, hk] using h
      simp only [extendFieldEntry, if_neg hk]
      simp [aLookup, hk]
      exact ih f occs d h2

/-- Extending one field leaves every other lookup unchanged. -/
theorem aLookup_extend_ne : ∀ (fm : FieldMap) (f g : String) (occs : List Occurrence), g ≠ f →
    aLookup g (extendFieldEntry fm f occs) = aLookup g fm := by
  intro fm
  induction fm with
  | nil => intro f g occs _; rfl
  | cons e t ih =>
    intro f g occs hg
    obtain ⟨k2, v⟩ := e
    by_cases hk : k2 = f
    · subst hk
      simp [extendFieldEntry, aLookup, Ne.symm hg]
    · simp only [extendFieldEntry, if_neg hk]
      by_cases hk2 : k2 = g
      · simp [aLookup, hk2]
      · simp [aLookup, hk2, ih f g occs hg]

/-- Appending an occurrence does not change the field keys. -/
theorem appendOcc_keys : ∀ (fm : FieldMap) (f : String) (occ : Occurrence),
    (appendOccEntry fm f occ).map Prod.fst = fm.map Prod.fst := by
  intro fm
  induction fm with
  | nil => intro f occ; rfl
  | cons e t ih =>
    intro f occ
    obtain ⟨k2, v⟩ := e
    by_cases hk : k2 = f
    · simp [appendOccEntry, hk]
    · simp [appendOccEntry, hk, ih]

/-- The per-match update keeps the field keys distinct. -/
theorem updateFieldMap_nodup (fm : FieldMap) (field dtype : String) (occ : Occurrence) :
    (fm.map Prod.fst).Nodup → ((updateFieldMap fm field dtype occ).map Prod.fst).Nodup := by
  intro h
  unfold updateFieldMap
  cases hl : aLookup field fm with
  | none =>
    have hnotin : field ∉ fm.map Prod.fst := (aLookup_none_iff fm field).mp hl
    simp [List.nodup_append, h, hnotin]
  | some d => rw [appendOcc_keys]; exact h

/-- The nested per-match update of `analyze_file` preserves the per-file
invariant. -/
theorem addOcc_demoInv (path field dtype : String) (occ : Occurrence) (d : DemoMap) :
    demoInv path d → demoInv path (addOcc d path field dtype occ) := by
  intro h
  rcases h with h | ⟨fm, hd, hn⟩
  · subst h
    exact Or.inr ⟨updateFieldMap [] field dtype occ, rfl, updateFieldMap_nodup [] field dtype occ (by simp)⟩
  · subst hd
    refine Or.inr ⟨updateFieldMap fm field dtype occ, ?_, updateFieldMap_nodup fm field dtype occ hn⟩
    show addOcc [(path, fm)] path field dtype occ = _
    unfold addOcc
    simp [aLookup, updateFileEntry]

/-- Fold preservation of an invariant. -/
theorem foldl_preserves {α β : Type} (inv : α → Prop) (f : α → β → α)
    (hf : ∀ a b, inv a → inv (f a b)) :
    ∀ (l : List β) (a : α), inv a → inv (l.foldl f a) := by
  intro l
  induction l with
  | nil => intro a h; exact h
  | cons x t ih => intro a h; exact ih (f a x) (hf a x h)

/-- The demographic line loop preserves the per-file invariant. -/
theorem analyzeLineDemo_demoInv (path : String) (n : Nat) (line : List Char) (d : DemoMap) :
    demoInv path d → demoInv path (analyzeLineDemo path n line d) := by
  intro h
  unfold analyzeLineDemo
  refine foldl_preserves (demoInv path) _ (fun a b ha => ?_) _ _ h
  refine foldl_preserves (demoInv path) _ (fun a2 b2 ha2 => ?_) _ _ ha
  exact addOcc_demoInv path b2 b.1 ⟨n, stripStr line⟩ a2 ha2

/-- The whole line loop preserves the per-file invariant. -/
theorem analyzeGo_demoInv (path : String) :
    ∀ (lines : List String) (n : Nat) (d : DemoMap) (ips : List IntegrationMatch),
    demoInv path d → demoInv path (analyzeGo path lines n d ips).demographic_data := by
  intro lines
  induction lines with
  | nil => intro n d ips h; exact h
  | cons l t ih =>
    intro n d ips h
    exact ih (n + 1) _ _ (analyzeLineDemo_demoInv path n l.data d h)

/-- The per-file dict of `analyze_file` is keyed by the analyzed path only
and has distinct field keys. -/
theorem analyze_file_demoInv (path : String) (content : Option (List String)) :
    demoInv path (analyze_file path content).demographic_data := by
  cases content with
  | none => exact Or.inl rfl
  | some lines => exact analyzeGo_demoInv path lines 1 [] [] (Or.inl rfl)

/-- Merging a field map with distinct keys combines entries pointwise. -/
theorem aLookup_mergeFields : ∀ (inc main : FieldMap), (inc.map Prod.fst).Nodup →
    ∀ f, aLookup f (mergeFields main inc) = combineFD (aLookup f main) (aLookup f inc) := by
  intro inc
  induction inc with
  | nil =>
    intro main _ f
    show aLookup f main = combineFD (aLookup f main) none
    cases aLookup f main <;> rfl
  | cons e t ih =>
    intro main h f
    obtain ⟨n, data⟩ := e
    have hkeys : (((n, data) :: t).map Prod.fst) = n :: t.map Prod.fst := rfl
    rw [hkeys] at h
    have hn : n ∉ t.map Prod.fst := (List.nodup_cons.mp h).1
    have ht : (t.map Prod.fst).Nodup := (List.nodup_cons.mp h).2
    show aLookup f (mergeFields (mergeFieldStep main (n, data)) t) = _
    rw [ih (mergeFieldStep main (n, data)) ht f]
    by_cases hf : f = n
    · subst hf
      have h1 : aLookup f t = none := (aLookup_none_iff t f).mpr hn
      have h2 : aLookup f ((f, data) :: t) = some data := by simp [aLookup]
      rw [h1, h2]
      cases hm : aLookup f main with
      | none =>
        have hstep : mergeFieldStep main (f, data) = main ++ [(f, data)] := by
          unfold mergeFieldStep; rw [hm]
        rw [hstep, aLookup_append, hm]
        simp [aLookup, combineFD]
      | some d0 =>
        have hstep : mergeFieldStep main (f, data) = extendFieldEntry main f data.occurrences := by
          unfold mergeFieldStep; rw [hm]
        rw [hstep, aLookup_extend_eq main f data.occurrences d0 hm]
        rfl
    · have h2 : aLookup f ((n, data) :: t) = aLookup f t := by
        simp [aLookup, Ne.symm hf]
      rw [h2]
      have h3 : aLookup f (mergeFieldStep main (n, data)) = aLookup f main := by
        unfold mergeFieldStep
        cases hm : aLookup n main with
        | none =>
          rw [aLookup_append]
          cases hmm : aLookup f main with
          | none => simp [aLookup, Ne.symm hf]
          | some v => rfl
        | some d0 => exact aLookup_extend_ne main n f data.occurrences hf
      rw [h3]

/-- C9: classifying a file and folding the result into the empty model
twice doubles the occurrence-list length recorded for every file and field
relative to the single fold, and adds no unique demographic field names
beyond the single-pass set. -/
theorem claim_C9_refold_doubles : ∀ (p : String) (lines : List String),
    (∀ file field,
      occLen (foldTwice p lines) file field = 2 * occLen (foldOnce p lines) file field)
    ∧ (foldTwice p lines).unique_demographic_fields
        = (foldOnce p lines).unique_demographic_fields := by
  intro p lines
  have hu1 : (foldOnce p lines).unique_demographic_fields
      = (analyze_file p (some lines)).demographic_data.foldl
          (fun s fe => s ∪ (fe.2.map Prod.fst).toFinset) ∅ := rfl
  have hu2 : (foldTwice p lines).unique_demographic_fields
      = (analyze_file p (some lines)).demographic_data.foldl
          (fun s fe => s ∪ (fe.2.map Prod.fst).toFinset)
          (foldOnce p lines).unique_demographic_fields := rfl
  rcases analyze_file_demoInv p (some lines) with h0 | ⟨fm, hd, hn⟩
  · have h1 : (foldOnce p lines).demographic_data = [] := by
      show mergeDemo [] (analyze_file p (some lines)).demographic_data = []
      rw [h0]
      rfl
    have h2 : (foldTwice p lines).demographic_data = [] := by
      show mergeDemo (foldOnce p lines).demographic_data
        (analyze_file p (some lines)).demographic_data = []
      rw [h0]
      exact h1
    refine ⟨fun file field => ?_, ?_⟩
    · unfold occLen
      rw [h1, h2]
      rfl
    · rw [hu2, h0]
      rw [hu1, h0]
      rfl
  · have honce : (foldOnce p lines).demographic_data = [(p, fm)] := by
      show mergeDemo [] (analyze_file p (some lines)).demographic_data = _
      rw [hd]
      rfl
    have htwice : (foldTwice p lines).demographic_data = [(p, mergeFields fm fm)] := by
      show mergeDemo (foldOnce p lines).demographic_data
        (analyze_file p (some lines)).demographic_data = _
      rw [hd, honce]
      show mergeDemoStep [(p, fm)] (p, fm) = _
      unfold mergeDemoStep
      simp [aLookup, updateFileEntry]
    refine ⟨fun file field => ?_, ?_⟩
    · unfold occLen
      rw [honce, htwice]
      by_cases hf : file = p
      · subst hf
        have ha : aLookup file [(file, fm)] = some fm := by simp [aLookup]
        have hb : aLookup file [(file, mergeFields fm fm)] = some (mergeFields fm fm) := by
          simp [aLookup]
        simp only [ha, hb]
        rw [aLookup_mergeFields fm fm hn field]
        cases hx : aLookup field fm with
        | none => rfl
        | some dd => simp [combineFD, Nat.two_mul]
      · have ha : aLookup file [(p, fm)] = none := by simp [aLookup, Ne.symm hf]
        have hb : aLookup file [(p, mergeFields fm fm)] = none := by simp [aLookup, Ne.symm hf]
        simp only [ha, hb]
    · have hk : (foldOnce p lines).unique_demographic_fields
          = (fm.map Prod.fst).toFinset := by
        rw [hu1, hd]
        simp
      rw [hu2, hd, hk]
      simp

/-- Shape of the members of a per-category match list. -/
theorem perCatMatches_mem : ∀ (subs : List (String × Rx)) (ctg path : String) (n : Nat)
    (line : List Char) (m : IntegrationMatch), m ∈ perCatMatches ctg path n line subs →
    ∃ sp ∈ subs, searchRx sp.2 line = true
      ∧ m = ⟨ctg, sp.1, path, n, stripStr line⟩ := by
  intro subs ctg path n line m hm
  unfold perCatMatches at hm
  obtain ⟨sp, hsp, hf⟩ := List.mem_filterMap.mp hm
  by_cases hs : searchRx sp.2 line = true
  · rw [if_pos hs] at hf
    exact ⟨sp, hsp, hs, (Option.some_inj.mp hf).symm⟩
  · rw [if_neg hs] at hf
    exact absurd hf (by simp)

/-- A per-category list counts zero for a selector naming another category,
another line, or a sub-rule absent from the category. -/
theorem countP_perCat_zero (subs : List (String × Rx)) (ctg path : String) (k : Nat)
    (line : List Char) (cat sub : String) (n : Nat)
    (h : ctg ≠ cat ∨ sub ∉ subs.map Prod.fst ∨ k ≠ n) :
    List.countP (ipred cat sub n) (perCatMatches ctg path k line subs) = 0 := by
  refine List.countP_eq_zero.mpr (fun m hm => ?_)
  obtain ⟨sp, hsp, _, hmeq⟩ := perCatMatches_mem subs ctg path k line m hm
  subst hmeq
  unfold ipred
  simp only [Bool.and_eq_true, beq_iff_eq]
  rintro ⟨⟨h1, h2⟩, h3⟩
  rcases h with h | h | h
  · exact h h1
  · exact h (h2 ▸ List.mem_map_of_mem Prod.fst hsp)
  · exact h h3

/-- A per-category list counts the selected present sub-rule exactly once
when its pattern fires and zero times otherwise. -/
theorem countP_perCat_mem : ∀ (subs : List (String × Rx)) (path : String) (n : Nat)
    (line : List Char) (cat sub : String) (pat : Rx),
    (subs.map Prod.fst).Nodup → (sub, pat) ∈ subs →
    List.countP (ipred cat sub n) (perCatMatches cat path n line subs)
      = if searchRx pat line then 1 else 0 := by
  intro subs
  induction subs with
  | nil => intro path n line cat sub pat _ hmem; simp at hmem
  | cons sp t ih =>
    intro path n line cat sub pat hnd hmem
    obtain ⟨s, r⟩ := sp
    have hkeys : (((s, r) :: t).map Prod.fst) = s :: t.map Prod.fst := rfl
    rw [hkeys] at hnd
    have hs_notin : s ∉ t.map Prod.fst := (List.nodup_cons.mp hnd).1
    have ht : (t.map Prod.fst).Nodup := (List.nodup_cons.mp hnd).2
    have hsplit : perCatMatches cat path n line ((s, r) :: t)
        = (if searchRx r line then [(⟨cat, s, path, n, stripStr line⟩ : IntegrationMatch)] else [])
          ++ perCatMatches cat path n line t := by
      unfold perCatMatches
      rw [List.filterMap_cons]
      by_cases hr : searchRx r line = true
      · rw [if_pos hr, if_pos hr]; rfl
      · rw [if_neg hr, if_neg hr]; rfl
    rw [hsplit, List.countP_append]
    rcases List.mem_cons.mp hmem with heq | hmem2
    · have hs : s = sub := by injection heq.symm
      have hr : r = pat := by injection heq.symm
      subst hs; subst hr
      have htail : List.countP (ipred cat s n) (perCatMatches cat path n line t) = 0 :=
        countP_perCat_zero t cat path n line cat s n (Or.inr (Or.inl hs_notin))
      rw [htail]
      by_cases hsr : searchRx r line = true
      · rw [if_pos hsr, if_pos hsr]
        simp [ipred]
      · rw [if_neg hsr, if_neg hsr]
        rfl
    · have hs_ne : s ≠ sub := by
        intro he
        exact hs_notin (he ▸ List.mem_map_of_mem Prod.fst hmem2)
      have hhead : List.countP (ipred cat sub n)
          (if searchRx r line then [(⟨cat, s, path, n, stripStr line⟩ : IntegrationMatch)] else [])
            = 0 := by
        by_cases hr : searchRx r line = true
        · rw [if_pos hr]
          simp [ipred, hs_ne]
        · rw [if_neg hr]
          rfl
      rw [hhead, ih path n line cat sub pat ht hmem2]
      simp

/-- The per-line integration loop, categorized. -/
theorem lineIntegration_eq (path : String) (n : Nat) (line : List Char) :
    lineIntegration path n line
      = integrationCatalog.flatMap (fun pc => perCatMatches pc.1 path n line pc.2) := rfl

/-- The catalog triples, categorized. -/
theorem integrationTriples_eq : integrationTriples = triplesOf integrationCatalog := rfl

/-- A triple of a catalog projects to a name pair of the catalog. -/
theorem mem_pairs_of_triples : ∀ (ctl : List (String × List (String × Rx)))
    (cat sub : String) (pat : Rx),
    (cat, sub, pat) ∈ triplesOf ctl → (cat, sub) ∈ pairsOf ctl := by
  intro ctl cat sub pat h
  unfold triplesOf at h
  obtain ⟨pc, hpc, hmem⟩ := List.mem_flatMap.mp h
  obtain ⟨sp, hsp, heq⟩ := List.mem_map.mp hmem
  unfold pairsOf
  refine List.mem_flatMap.mpr ⟨pc, hpc, List.mem_map.mpr ⟨sp, hsp, ?_⟩⟩
  have h1 : pc.1 = cat := by injection heq
  have h2 : sp.1 = sub := by
    have := heq
    injection this with ha hb
    injection hb
  rw [h1, h2]

/-- A name pair absent from the catalog (or a wrong line number) counts
zero over the whole per-line output. -/
theorem countP_catalog_zero : ∀ (ctl : List (String × List (String × Rx))) (path : String)
    (k : Nat) (line : List Char) (cat sub : String) (n : Nat),
    ((cat, sub) ∉ pairsOf ctl ∨ k ≠ n) →
    List.countP (ipred cat sub n)
      (ctl.flatMap (fun pc => perCatMatches pc.1 path k line pc.2)) = 0 := by
  intro ctl
  induction ctl with
  | nil => intro path k line cat sub n _; rfl
  | cons pc rest ih =>
    intro path k line cat sub n h
    obtain ⟨c, subs⟩ := pc
    rw [List.flatMap_cons, List.countP_append]
    have hpairs : pairsOf ((c, subs) :: rest)
        = subs.map (fun sp => (c, sp.1)) ++ pairsOf rest := rfl
    have hhead : List.countP (ipred cat sub n) (perCatMatches c path k line subs) = 0 := by
      refine countP_perCat_zero subs c path k line cat sub n ?_
      rcases h with h | h
      · rw [hpairs] at h
        by_cases hc : c = cat
        · subst hc
          refine Or.inr (Or.inl (fun hsub => h (List.mem_append.mpr (Or.inl ?_))))
          obtain ⟨sp, hsp, hspe⟩ := List.mem_map.mp hsub
          exact List.mem_map.mpr ⟨sp, hsp, by rw [hspe]⟩
        · exact Or.inl hc
      · exact Or.inr (Or.inr h)
    have htail : List.countP (ipred cat sub n)
        (rest.flatMap (fun pc => perCatMatches pc.1 path k line pc.2)) = 0 := by
      refine ih path k line cat sub n ?_
      rcases h with h | h
      · rw [hpairs] at h
        exact Or.inl (fun hr => h (List.mem_append.mpr (Or.inr hr)))
      · exact Or.inr h
    rw [hhead, htail]

/-- Over a catalog with distinct rule names, the per-line output contains
the match of a catalog rule exactly once when its pattern fires on the
line, and never otherwise. -/
theorem countP_catalog_mem : ∀ (ctl : List (String × List (String × Rx))) (path : String)
    (n : Nat) (line : List Char) (cat sub : String) (pat : Rx),
    (pairsOf ctl).Nodup → (cat, sub, pat) ∈ triplesOf ctl →
    List.countP (ipred cat sub n)
      (ctl.flatMap (fun pc => perCatMatches pc.1 path n line pc.2))
      = if searchRx pat line then 1 else 0 := by
  intro ctl
  induction ctl with
  | nil => intro path n line cat sub pat _ hmem; simp [triplesOf] at hmem
  | cons pc rest ih =>
    intro path n line cat sub pat hnd hmem
    obtain ⟨c, subs⟩ := pc
    have hpairs : pairsOf ((c, subs) :: rest)
        = subs.map (fun sp => (c, sp.1)) ++ pairsOf rest := rfl
    rw [hpairs] at hnd
    obtain ⟨nd1, nd2, hdisj⟩ := List.nodup_append.mp hnd
    have htrip : triplesOf ((c, subs) :: rest)
        = subs.map (fun sp => (c, sp.1, sp.2)) ++ triplesOf rest := rfl
    rw [htrip] at hmem
    rw [List.flatMap_cons, List.countP_append]
    rcases List.mem_append.mp hmem with hm | hm
    · obtain ⟨sp, hsp, heq⟩ := List.mem_map.mp hm
      have hc : c = cat := by injection heq
      have hrest2 : sp.1 = sub ∧ sp.2 = pat := by
        have h2 := heq
        injection h2 with ha hb
        exact ⟨by injection hb, by injection hb⟩
      have hsubpat : (sub, pat) ∈ subs := by
        have : sp = (sub, pat) := by
          obtain ⟨ha, hb⟩ := hrest2
          exact Prod.ext ha hb
        rw [← this]
        exact hsp
      have hknd : (subs.map Prod.fst).Nodup := by
        have hmm : subs.map (fun sp => (c, sp.1))
            = (subs.map Prod.fst).map (fun x => (c, x)) := by
          rw [List.map_map]
          rfl
        rw [hmm] at nd1
        exact nd1.of_map
      have hhead : List.countP (ipred cat sub n) (perCatMatches c path n line subs)
          = if searchRx pat line then 1 else 0 := by
        subst hc
        exact countP_perCat_mem subs path n line c sub pat hknd hsubpat
      have hpmem : (cat, sub) ∈ subs.map (fun sp => (c, sp.1)) := by
        refine List.mem_map.mpr ⟨sp, hsp, ?_⟩
        rw [hc, hrest2.1]
      have htail : List.countP (ipred cat sub n)
          (rest.flatMap (fun pc => perCatMatches pc.1 path n line pc.2)) = 0 :=
        countP_catalog_zero rest path n line cat sub n (Or.inl (hdisj hpmem))
      rw [hhead, htail]
      simp
    · have hprest : (cat, sub) ∈ pairsOf rest := mem_pairs_of_triples rest cat sub pat hm
      have hhead : List.countP (ipred cat sub n) (perCatMatches c path n line subs) = 0 := by
        refine countP_perCat_zero subs c path n line cat sub n ?_
        by_cases hc : c = cat
        · subst hc
          refine Or.inr (Or.inl (fun hsub => ?_))
          obtain ⟨sp, hsp, hspe⟩ := List.mem_map.mp hsub
          have : (c, sub) ∈ subs.map (fun sp => (c, sp.1)) :=
            List.mem_map.mpr ⟨sp, hsp, by rw [hspe]⟩
          exact hdisj this hprest
        · exact Or.inl hc
      rw [hhead, ih path n line cat sub pat nd2 hm]
      simp

/-- Every match produced for a line carries that line number. -/
theorem lineIntegration_line_number (path : String) (k : Nat) (line : List Char) :
    ∀ m ∈ lineIntegration path k line, m.line_number = k := by
  intro m hm
  rw [lineIntegration_eq] at hm
  obtain ⟨pc, _, hmem⟩ := List.mem_flatMap.mp hm
  obtain ⟨sp, _, _, hmeq⟩ := perCatMatches_mem pc.2 pc.1 path k line m hmem
  rw [hmeq]

/-- A selector for a different line number counts zero on a line. -/
theorem countP_lineIntegration_ne (path : String) (k n : Nat) (line : List Char)
    (cat sub : String) (h : k ≠ n) :
    List.countP (ipred cat sub n) (lineIntegration path k line) = 0 := by
  refine List.countP_eq_zero.mpr (fun m hm => ?_)
  have hline := lineIntegration_line_number path k line m hm
  unfold ipred
  simp only [Bool.and_eq_true, beq_iff_eq]
  rintro ⟨_, h3⟩
  rw [hline] at h3
  exact h h3

/-- Line numbers in a tail run never fall below its starting number. -/
theorem intOf_ge (path : String) : ∀ (lines : List String) (k : Nat) (m : IntegrationMatch),
    m ∈ intOf path lines k → k ≤ m.line_number := by
  intro lines
  induction lines with
  | nil => intro k m hm; simp [intOf] at hm
  | cons l ls ih =>
    intro k m hm
    rcases List.mem_append.mp hm with h | h
    · rw [lineIntegration_line_number path k l.data m h]
    · exact Nat.le_of_succ_le (ih (k + 1) m h)

/-- A selector for an earlier line counts zero over a tail run. -/
theorem countP_intOf_lt (path : String) (lines : List String) (k n : Nat)
    (cat sub : String) (h : n < k) :
    List.countP (ipred cat sub n) (intOf path lines k) = 0 := by
  refine List.countP_eq_zero.mpr (fun m hm => ?_)
  have hge := intOf_ge path lines k m hm
  unfold ipred
  simp only [Bool.and_eq_true, beq_iff_eq]
  rintro ⟨_, h3⟩
  omega

/-- The integration output of the line loop is the accumulated run. -/
theorem analyzeGo_int (path : String) : ∀ (lines : List String) (k : Nat) (d : DemoMap)
    (ips : List IntegrationMatch),
    (analyzeGo path lines k d ips).integration_patterns = ips ++ intOf path lines k := by
  intro lines
  induction lines with
  | nil => intro k d ips; simp [analyzeGo, intOf]
  | cons l ls ih =>
    intro k d ips
    show (analyzeGo path ls (k + 1) _ (ips ++ lineIntegration path k l.data)).integration_patterns = _
    rw [ih (k + 1) _ _]
    show ips ++ lineIntegration path k l.data ++ intOf path ls (k + 1) = _
    rw [List.append_assoc]
    rfl

/-- Counting one catalog rule at the line holding `line` over a whole run. -/
theorem countP_intOf : ∀ (lines : List String) (path : String) (k j : Nat) (line : String)
    (cat sub : String) (pat : Rx),
    lines.get? j = some line → (cat, sub, pat) ∈ integrationTriples →
    List.countP (ipred cat sub (k + j)) (intOf path lines k)
      = if searchRx pat line.data then 1 else 0 := by
  intro lines
  induction lines with
  | nil => intro path k j line cat sub pat hget _; simp at hget
  | cons l ls ih =>
    intro path k j line cat sub pat hget htr
    show List.countP _ (lineIntegration path k l.data ++ intOf path ls (k + 1)) = _
    rw [List.countP_append]
    cases j with
    | zero =>
      have hl : l = line := by simpa using hget
      subst hl
      have htail : List.countP (ipred cat sub (k + 0)) (intOf path ls (k + 1)) = 0 :=
        countP_intOf_lt path ls (k + 1) (k + 0) cat sub (by omega)
      have hhead : List.countP (ipred cat sub (k + 0)) (lineIntegration path k l.data)
          = if searchRx pat l.data then 1 else 0 := by
        have hk : k + 0 = k := rfl
        rw [hk, lineIntegration_eq]
        refine countP_catalog_mem integrationCatalog path k l.data cat sub pat ?_ ?_
        · decide
        · rw [← integrationTriples_eq]; exact htr
      rw [hhead, htail]
      simp
    | succ j2 =>
      have hhead : List.countP (ipred cat sub (k + (j2 + 1))) (lineIntegration path k l.data) = 0 :=
        countP_lineIntegration_ne path k (k + (j2 + 1)) l.data cat sub (by omega)
      have harith : k + (j2 + 1) = (k + 1) + j2 := by omega
      rw [hhead, harith, ih path (k + 1) j2 line cat sub pat (by simpa using hget) htr]
      simp

/-- C8: for every line of a classified file, every integration sub-rule of
every category is evaluated independently: for each catalog triple
`(pattern_type, sub_type, pattern)` the file result records exactly one
IntegrationMatch for that rule at that line when the pattern fires on the
line, and none otherwise — no first-match-wins suppression across
categories and no deduplication of a line's matches. -/
theorem claim_C8_rules_independent :
    ∀ (path : String) (lines : List String) (n : Nat) (line : String)
    (cat sub : String) (pat : Rx),
    lines.get? (n - 1) = some line → 1 ≤ n →
    (cat, sub, pat) ∈ integrationTriples →
    List.countP (ipred cat sub n) (analyze_file path (some lines)).integration_patterns
      = if searchRx pat line.data then 1 else 0 := by
  intro path lines n line cat sub pat hget hn htr
  show List.countP _ (analyzeGo path lines 1 [] []).integration_patterns = _
  rw [analyzeGo_int path lines 1 [] []]
  have h := countP_intOf lines path 1 (n - 1) line cat sub pat hget htr
  have harith : 1 + (n - 1) = n := by omega
  rw [harith] at h
  simpa using h

/-- C8 witness at the line `@GetMapping("/api/users")`: the rule
`(rest_api, api_endpoints)` fires and is recorded exactly once, while
`(rest_api, http_methods)` does not fire (no HTTP verb token followed by
`api`/`endpoint` under word boundaries) and is recorded zero times —
evaluated independently on the same line. -/
theorem claim_C8_rules_independent_witness :
    List.countP (ipred "rest_api" "api_endpoints" 1)
      (analyze_file "Controller.java" (some ["@GetMapping(\"/api/users\")"])).integration_patterns = 1
    ∧ List.countP (ipred "rest_api" "http_methods" 1)
      (analyze_file "Controller.java" (some ["@GetMapping(\"/api/users\")"])).integration_patterns = 0 := by
  constructor
  · have h := claim_C8_rules_independent "Controller.java" ["@GetMapping(\"/api/users\")"] 1
      "@GetMapping(\"/api/users\")" "rest_api" "api_endpoints" rx_api_endpoints
      rfl (by decide) (List.Mem.tail _ (List.Mem.tail _ (List.Mem.head _)))
    rw [h]
    decide
  · have h := claim_C8_rules_independent "Controller.java" ["@GetMapping(\"/api/users\")"] 1
      "@GetMapping(\"/api/users\")" "rest_api" "http_methods" rx_http_methods
      rfl (by decide) (List.Mem.head _)
    rw [h]
    decide
